import Mathlib

/-!
Verification of the git-ledger repository: a shallow embedding of the
monotonic CAS ledger (`src/ledger.rs`), the blob-ledger lease manager
(`src/blob_ledger.rs`) and the ref utilities (`src/util.rs`), together
with proofs about the spec's claims.

Bytes are modelled as natural numbers below 256; u64 values as natural
numbers below 2^64 (overflow is irrelevant here: the code never does
arithmetic on leases, only encoding/decoding).
-/

/-- A byte sequence (each element a `u8`, i.e. `< 256` where it matters). -/
abbrev Bytes := List Nat

/-- One hex digit character code, as produced by the `hex` crate
(lowercase): digits `0`-`9` are codes 48+n, letters `a`-`f` are codes
87+n (for n in 10..16). -/
def hexDigitChar (n : Nat) : Nat :=
  if n < 10 then 48 + n else 87 + n

/-- `hex::encode`: each byte becomes two hex digit characters, high
nibble first. -/
def hexEncode : Bytes → Bytes
  | [] => []
  | b :: rest => hexDigitChar (b / 16) :: hexDigitChar (b % 16) :: hexEncode rest

/-- Decode one hex digit character; `hex::decode` accepts `0-9`, `a-f`
and `A-F`. -/
def fromHexDigit (c : Nat) : Option Nat :=
  if 48 ≤ c ∧ c ≤ 57 then some (c - 48)
  else if 97 ≤ c ∧ c ≤ 102 then some (c - 87)
  else if 65 ≤ c ∧ c ≤ 70 then some (c - 55)
  else none

/-- `hex::decode`: consumes characters two at a time; fails on odd
length or a non-hex character. -/
def hexDecode : Bytes → Option Bytes
  | [] => some []
  | [_] => none
  | c1 :: c2 :: rest =>
    match fromHexDigit c1, fromHexDigit c2, hexDecode rest with
    | some h, some l, some tail => some ((16 * h + l) :: tail)
    | _, _, _ => none

/-- `k` little-endian base-256 digits of `n` (generalizes
`u64::to_le_bytes`, which is the case `k = 8`). -/
def toLeBytesN : Nat → Nat → Bytes
  | 0, _ => []
  | k + 1, n => n % 256 :: toLeBytesN k (n / 256)

/-- `u64::to_le_bytes`. -/
def u64ToLeBytes (n : Nat) : Bytes := toLeBytesN 8 n

/-- `u64::from_le_bytes` (the caller guarantees the list has length 8). -/
def fromLeBytes (bs : Bytes) : Nat :=
  bs.foldr (fun b acc => b + 256 * acc) 0

lemma fromHexDigit_hexDigitChar (n : Nat) (h : n < 16) :
    fromHexDigit (hexDigitChar n) = some n := by
  unfold fromHexDigit hexDigitChar
  split_ifs <;> simp_all <;> omega

lemma hexDecode_cons (c1 c2 : Nat) (l : Bytes) (hh ll : Nat) (t : Bytes)
    (h1 : fromHexDigit c1 = some hh) (h2 : fromHexDigit c2 = some ll)
    (h3 : hexDecode l = some t) :
    hexDecode (c1 :: c2 :: l) = some ((16 * hh + ll) :: t) := by
  simp [hexDecode, h1, h2, h3]

lemma hexDecode_hexEncode (bs : Bytes) (h : ∀ b ∈ bs, b < 256) :
    hexDecode (hexEncode bs) = some bs := by
  induction bs with
  | nil => rfl
  | cons b rest ih =>
    have hb : b < 256 := h b (by simp)
    have hdiv : b / 16 < 16 := by omega
    have hmod : b % 16 < 16 := by omega
    have ihr : hexDecode (hexEncode rest) = some rest :=
      ih (fun x hx => h x (by simp [hx]))
    have e : hexEncode (b :: rest)
        = hexDigitChar (b / 16) :: hexDigitChar (b % 16) :: hexEncode rest := rfl
    rw [e, hexDecode_cons _ _ _ _ _ _
      (fromHexDigit_hexDigitChar _ hdiv) (fromHexDigit_hexDigitChar _ hmod) ihr]
    have hbb : 16 * (b / 16) + b % 16 = b := by omega
    rw [hbb]

lemma toLeBytesN_length (k n : Nat) : (toLeBytesN k n).length = k := by
  induction k generalizing n with
  | zero => rfl
  | succ k ih => simp [toLeBytesN, ih]

lemma toLeBytesN_lt (k n : Nat) : ∀ b ∈ toLeBytesN k n, b < 256 := by
  induction k generalizing n with
  | zero => simp [toLeBytesN]
  | succ k ih =>
    intro b hb
    simp only [toLeBytesN, List.mem_cons] at hb
    rcases hb with h | h
    · omega
    · exact ih _ b h

lemma fromLeBytes_toLeBytesN (k n : Nat) :
    fromLeBytes (toLeBytesN k n) = n % 256 ^ k := by
  induction k generalizing n with
  | zero => simp [toLeBytesN, fromLeBytes, Nat.mod_one]
  | succ k ih =>
    simp only [toLeBytesN, fromLeBytes, List.foldr_cons]
    have hrec : fromLeBytes (toLeBytesN k (n / 256)) = (n / 256) % 256 ^ k := ih _
    simp only [fromLeBytes] at hrec
    rw [hrec]
    have hpow : (256 : Nat) ^ (k + 1) = 256 * 256 ^ k := by
      rw [pow_succ]; ring
    rw [hpow, Nat.mod_mul]

lemma fromLeBytes_u64ToLeBytes (n : Nat) (h : n < 2 ^ 64) :
    fromLeBytes (u64ToLeBytes n) = n := by
  have h256 : (256 : Nat) ^ 8 = 2 ^ 64 := by norm_num
  rw [u64ToLeBytes, fromLeBytes_toLeBytesN, h256, Nat.mod_eq_of_lt h]

/-! ## Object store and commit graph

Blob ids and commit ids are allocation indices into the respective
object lists; this reflects content addressing at the level the claims
need (looking up a just-written object returns its data, and a commit
created by `push` is distinct from every previously existing commit).
-/

/-- `gix_object::tree::EntryMode`, restricted to the modes the code uses. -/
inductive EntryMode where
  | blob
  | tree
deriving DecidableEq, Repr

/-- `gix_object::tree::Entry`: `(oid, mode, filename)`. -/
structure TreeEntry where
  oid : Nat
  mode : EntryMode
  filename : Bytes
deriving DecidableEq, Repr

/-- `gix_object::Tree` (the `TreeBuilder` of the source): a list of entries. -/
structure TreeBuilder where
  entries : List TreeEntry
deriving DecidableEq, Repr

/-- A commit object: single optional parent (the code always passes
`old_commit_id.into_iter()`, zero or one parent) plus its root tree. -/
structure CommitObj where
  parent : Option Nat
  tree : TreeBuilder
deriving DecidableEq, Repr

/-- The object store: blobs and commits, addressed by allocation index. -/
structure Store where
  blobs : List Bytes
  commits : List CommitObj
deriving DecidableEq, Repr

/-- `Repository::write_blob`. -/
def writeBlob (s : Store) (data : Bytes) : Store × Nat :=
  ({ s with blobs := s.blobs ++ [data] }, s.blobs.length)

/-- `Repository::find_object` for a blob id. -/
def findBlob (s : Store) (oid : Nat) : Option Bytes :=
  s.blobs[oid]?

/-- Record a new commit object (what `Repository::commit` does to the
object database); its id is the allocation index. -/
def Store.addCommit (s : Store) (parent : Option Nat) (tree : TreeBuilder) : Store :=
  { s with commits := s.commits ++ [⟨parent, tree⟩] }

/-- Parent of commit `i`, or `none` if `i` is a root (or absent). -/
def parentOf (s : Store) (i : Nat) : Option Nat :=
  match s.commits[i]? with
  | none => none
  | some c => c.parent

/-- Well-formed store: every commit was created after its parent, so
parent ids are strictly smaller.  This is the acyclicity invariant the
git object model guarantees and `rev_walk` termination relies on. -/
def StoreWF (s : Store) : Prop :=
  ∀ i p, parentOf s i = some p → p < i

/-- Executable check implying `StoreWF`, for concrete stores. -/
def storeWFb (s : Store) : Bool :=
  (List.range s.commits.length).all fun i =>
    match parentOf s i with
    | none => true
    | some p => decide (p < i)

/-- The first-parent ancestry walk performed by `Repository::rev_walk`
in `is_ancestor`: start commit first, then its parent chain.  `fuel`
bounds the walk; with `fuel = i` it is complete on a well-formed store. -/
def revWalk (s : Store) : Nat → Nat → List Nat
  | 0, i => [i]
  | fuel + 1, i =>
    i :: (match parentOf s i with
          | none => []
          | some p => revWalk s fuel p)

/-- `is_ancestor(repo, old, new)`: walk from `new` and look for `old`
(note the walk includes `new` itself, so this is reflexive). -/
def is_ancestor (s : Store) (old new : Nat) : Bool :=
  decide (old ∈ revWalk s new new)

/-- Strict (proper) ancestry: transitive closure of the parent relation. -/
inductive StrictAncestor (s : Store) : Nat → Nat → Prop where
  | parent {c p : Nat} : parentOf s c = some p → StrictAncestor s p c
  | step {a b c : Nat} : parentOf s c = some b → StrictAncestor s a b →
      StrictAncestor s a c

/-- `util::fast_forward`: given the current peeled value of the local
ref and the target id, return the ref's new value and the boolean result. -/
def fast_forward (s : Store) (refVal : Option Nat) (id : Nat) : Option Nat × Bool :=
  match refVal with
  | none => (some id, true)
  | some cur =>
    if cur = id then (some cur, true)
    else if is_ancestor s cur id then (some id, true)
    else (some cur, false)

lemma storeWFb_sound (s : Store) (h : storeWFb s = true) : StoreWF s := by
  intro i p hp
  by_cases hi : i < s.commits.length
  · have := List.all_eq_true.mp h i (List.mem_range.mpr hi)
    rw [hp] at this
    exact of_decide_eq_true this
  · exfalso
    have : s.commits[i]? = none := by
      rw [List.getElem?_eq_none]
      omega
    simp [parentOf, this] at hp

lemma revWalk_self (s : Store) (fuel i : Nat) : i ∈ revWalk s fuel i := by
  cases fuel <;> simp [revWalk]

lemma mem_revWalk_le (s : Store) (hwf : StoreWF s) :
    ∀ fuel i j, j ∈ revWalk s fuel i → j ≤ i := by
  intro fuel
  induction fuel with
  | zero =>
    intro i j hj
    simp [revWalk] at hj
    omega
  | succ f ih =>
    intro i j hj
    simp only [revWalk, List.mem_cons] at hj
    rcases hj with h | h
    · omega
    · cases hp : parentOf s i with
      | none => rw [hp] at h; simp at h
      | some p =>
        rw [hp] at h
        have hpi : p < i := hwf i p hp
        have := ih p j h
        omega

lemma mem_revWalk_imp (s : Store) :
    ∀ fuel i j, j ∈ revWalk s fuel i → j = i ∨ StrictAncestor s j i := by
  intro fuel
  induction fuel with
  | zero =>
    intro i j hj
    simp [revWalk] at hj
    exact Or.inl hj
  | succ f ih =>
    intro i j hj
    simp only [revWalk, List.mem_cons] at hj
    rcases hj with h | h
    · exact Or.inl h
    · cases hp : parentOf s i with
      | none => rw [hp] at h; simp at h
      | some p =>
        rw [hp] at h
        rcases ih p j h with h' | h'
        · exact Or.inr (h' ▸ StrictAncestor.parent hp)
        · exact Or.inr (StrictAncestor.step hp h')

lemma strictAncestor_mem_revWalk (s : Store) (hwf : StoreWF s) {j i : Nat}
    (h : StrictAncestor s j i) : ∀ fuel, i ≤ fuel → j ∈ revWalk s fuel i := by
  induction h with
  | @parent c p hp =>
    intro fuel hfuel
    have hpc : p < c := hwf c p hp
    cases fuel with
    | zero => omega
    | succ f =>
      simp only [revWalk, hp, List.mem_cons]
      exact Or.inr (revWalk_self s f p)
  | @step a b c hp _ ih =>
    intro fuel hfuel
    have hbc : b < c := hwf c b hp
    cases fuel with
    | zero => omega
    | succ f =>
      simp only [revWalk, hp, List.mem_cons]
      exact Or.inr (ih f (by omega))

lemma is_ancestor_iff (s : Store) (hwf : StoreWF s) (old new : Nat) :
    is_ancestor s old new = true ↔ old = new ∨ StrictAncestor s old new := by
  constructor
  · intro h
    exact mem_revWalk_imp s new new old (of_decide_eq_true h)
  · intro h
    apply decide_eq_true
    rcases h with h | h
    · exact h ▸ revWalk_self s new new
    · exact strictAncestor_mem_revWalk s hwf h new le_rfl

/-! ## Lease codec (`blob_ledger.rs`: `encode` / `decode`) -/

/-- Errors `decode` can surface.  `panicUnreachable` stands for the
`unreachable!()` panic hit when the tree has zero entries; the others
are the `anyhow` failures.  (`notABlob` cannot trigger in this model
because the blob namespace only holds blobs.) -/
inductive DecodeErr where
  | unexpectedTreeEntries
  | hexError
  | invalidEntryFormat
  | missingObject
  | notABlob
  | panicUnreachable
deriving DecidableEq, Repr

/-- `blob_ledger::decode`: reject trees with more than one entry; for
the single entry, hex-decode the filename, require exactly 8 bytes,
read them as a little-endian `u64`, and fetch the blob.  An empty tree
falls through the entry loop into `unreachable!()`. -/
def decode (s : Store) (t : TreeBuilder) : Except DecodeErr (Bytes × Nat) :=
  if t.entries.length > 1 then .error .unexpectedTreeEntries
  else
    match t.entries with
    | [] => .error .panicUnreachable
    | entry :: _ =>
      match hexDecode entry.filename with
      | none => .error .hexError
      | some fn =>
        if fn.length = 8 then
          match findBlob s entry.oid with
          | none => .error .missingObject
          | some data => .ok (data, fromLeBytes fn)
        else .error .invalidEntryFormat

/-- `blob_ledger::encode`: write the payload blob, build a tree with a
single blob entry whose filename is `hex::encode(lease.to_le_bytes())`. -/
def encode (s : Store) (data : Bytes) (lease : Nat) : Store × TreeBuilder :=
  let (s', oid) := writeBlob s data
  (s', ⟨[⟨oid, .blob, hexEncode (u64ToLeBytes lease)⟩]⟩)

lemma decode_single_entry (s : Store) (oid : Nat) (m : EntryMode) (lease : Nat)
    (data : Bytes) (hl : lease < 2 ^ 64) (hb : findBlob s oid = some data) :
    decode s ⟨[⟨oid, m, hexEncode (u64ToLeBytes lease)⟩]⟩ = .ok (data, lease) := by
  have hhex : hexDecode (hexEncode (u64ToLeBytes lease)) = some (u64ToLeBytes lease) :=
    hexDecode_hexEncode _ (toLeBytesN_lt 8 lease)
  have hlen : (u64ToLeBytes lease).length = 8 := toLeBytesN_length 8 lease
  simp [decode, hhex, hlen, hb, fromLeBytes_u64ToLeBytes lease hl]

lemma decode_encode (s : Store) (data : Bytes) (lease : Nat) (hl : lease < 2 ^ 64) :
    decode (encode s data lease).1 (encode s data lease).2 = .ok (data, lease) := by
  apply decode_single_entry _ _ _ _ _ hl
  simp [encode, writeBlob, findBlob]

/-! ## The monotonic ledger push (`ledger.rs`: `GitLedger::push`)

The remote serializes pushes (spec §5: a push with `expected_parent = X`
succeeds only if the remote tip at serialization time permits the
fast-forward), so concurrent pushes are modelled as sequential
applications of `pushCAS` in either order.  `World` is the serialized
view: the shared object store plus the remote branch tip, together with
a counter of push subprocess invocations (to make push attempts
observable). -/

/-- Exit of the external `git push` subprocess:
`Ok(success)`, `Ok(non-success)`, or `Err` from spawning. -/
inductive CmdResult where
  | success
  | rejected
  | spawnFailed
deriving DecidableEq, Repr

/-- Errors `GitLedger::push` can return. -/
inductive PushErr where
  | gitCommandFailed
  | subprocessFailed
deriving DecidableEq, Repr

/-- `GitLedger::maybe_raced`: after fetching, compare the pushed
`old_commit_id` to the tracking ref's value; `true` means they differ
(a race happened). -/
def maybe_raced (old_commit_id remote_id : Option Nat) : Bool :=
  old_commit_id != remote_id

/-- Result computation of `GitLedger::push` given the subprocess exit
and the remote tip observed by `maybe_raced`'s fetch: on success return
the new commit id; on rejection return `none` iff the tip differs from
`expected_parent`, else fail; on spawn failure, fail. -/
def pushRust (cmd : CmdResult) (expected observed : Option Nat) (newId : Nat) :
    Except PushErr (Option Nat) :=
  match cmd with
  | .success => .ok (some newId)
  | .rejected =>
    if maybe_raced expected observed then .ok none
    else .error .gitCommandFailed
  | .spawnFailed => .error .subprocessFailed

/-- Serialized protocol state: object store, remote branch tip, and the
number of push attempts made so far. -/
structure World where
  store : Store
  tip : Option Nat
  attempts : Nat
deriving DecidableEq, Repr

/-- Valid `World`: well-formed store and a tip that exists. -/
def WorldWF (w : World) : Prop :=
  StoreWF w.store ∧ ∀ t, w.tip = some t → t < w.store.commits.length

/-- Executable check implying `WorldWF`. -/
def worldWFb (w : World) : Bool :=
  storeWFb w.store &&
    (match w.tip with
     | none => true
     | some t => decide (t < w.store.commits.length))

lemma worldWFb_sound (w : World) (h : worldWFb w = true) : WorldWF w := by
  rw [worldWFb, Bool.and_eq_true] at h
  refine ⟨storeWFb_sound _ h.1, ?_⟩
  intro t ht
  have := h.2
  rw [ht] at this
  exact of_decide_eq_true this

/-- `expected_parent` refers to a commit the store actually has (or none). -/
def validParent (s : Store) (e : Option Nat) : Prop :=
  ∀ p, e = some p → p < s.commits.length

/-- The external `git push` CAS contract (spec §6): the push of the new
commit succeeds iff the remote ref is absent or its current value is an
ancestor of (or equal to) the pushed commit. -/
def canFF (s : Store) (tipv : Option Nat) (newId : Nat) : Bool :=
  match tipv with
  | none => true
  | some t => is_ancestor s t newId

/-- `GitLedger::push` under the serialized CAS semantics: write the
tree, create the commit (parent = `expected`), invoke the external push
(whose exit is determined by `canFF`), and compute the result as
`pushRust` does.  The new commit object stays in the store either way
(it was created locally); the remote tip advances only on success. -/
def pushCAS (w : World) (expected : Option Nat) (tb : TreeBuilder) :
    World × Except PushErr (Option Nat) :=
  let newId := w.store.commits.length
  let store' := w.store.addCommit expected tb
  let cmd : CmdResult := if canFF store' w.tip newId then .success else .rejected
  ({ store := store'
   , tip := if cmd = .success then some newId else w.tip
   , attempts := w.attempts + 1 },
   pushRust cmd expected w.tip newId)

/-- `true` iff a push call returned a new commit hash. -/
def pushSucceeded : Except PushErr (Option Nat) → Bool
  | .ok (some _) => true
  | _ => false

lemma parentOf_addCommit_lt (s : Store) (e : Option Nat) (tb : TreeBuilder)
    {i : Nat} (h : i < s.commits.length) :
    parentOf (s.addCommit e tb) i = parentOf s i := by
  simp [parentOf, Store.addCommit, List.getElem?_append_left h]

lemma parentOf_addCommit_self (s : Store) (e : Option Nat) (tb : TreeBuilder) :
    parentOf (s.addCommit e tb) s.commits.length = e := by
  simp [parentOf, Store.addCommit, List.getElem?_concat_length]

lemma storeWF_addCommit (s : Store) (e : Option Nat) (tb : TreeBuilder)
    (hwf : StoreWF s) (he : validParent s e) :
    StoreWF (s.addCommit e tb) := by
  intro i p hp
  rcases Nat.lt_trichotomy i s.commits.length with hi | hi | hi
  · rw [parentOf_addCommit_lt s e tb hi] at hp
    exact hwf i p hp
  · subst hi
    rw [parentOf_addCommit_self] at hp
    exact he p hp
  · exfalso
    have hnone : (s.addCommit e tb).commits[i]? = none := by
      apply List.getElem?_eq_none
      simp [Store.addCommit]
      omega
    simp [parentOf, hnone] at hp

lemma revWalk_addCommit (s : Store) (e : Option Nat) (tb : TreeBuilder)
    (hwf : StoreWF s) :
    ∀ fuel i, i < s.commits.length →
      revWalk (s.addCommit e tb) fuel i = revWalk s fuel i := by
  intro fuel
  induction fuel with
  | zero => intro i _; rfl
  | succ f ih =>
    intro i hi
    simp only [revWalk, parentOf_addCommit_lt s e tb hi]
    cases hp : parentOf s i with
    | none => rfl
    | some p =>
      have hpi : p < i := hwf i p hp
      simp [ih p (by omega)]

lemma canFF_tip_eq (s : Store) (e : Option Nat) (tb : TreeBuilder)
    (he : validParent s e) :
    canFF (s.addCommit e tb) e s.commits.length = true := by
  cases e with
  | none => rfl
  | some p =>
    have hp : p < s.commits.length := he p rfl
    simp only [canFF, is_ancestor]
    apply decide_eq_true
    obtain ⟨m, hm⟩ : ∃ m, s.commits.length = m + 1 := ⟨s.commits.length - 1, by omega⟩
    have hpar : parentOf (s.addCommit (some p) tb) (m + 1) = some p := by
      rw [← hm]; exact parentOf_addCommit_self s (some p) tb
    rw [hm]
    simp only [revWalk, hpar, List.mem_cons]
    exact Or.inr (revWalk_self _ m p)

lemma canFF_advanced_false (s : Store) (e : Option Nat) (tb : TreeBuilder)
    (hwf : StoreWF s) (he : validParent s e) {t : Nat}
    (ht : t < s.commits.length)
    (hgt : e = none ∨ ∃ p, e = some p ∧ p < t) :
    canFF (s.addCommit e tb) (some t) s.commits.length = false := by
  simp only [canFF, is_ancestor]
  apply decide_eq_false
  intro hmem
  obtain ⟨m, hm⟩ : ∃ m, s.commits.length = m + 1 := ⟨s.commits.length - 1, by omega⟩
  have hpar : parentOf (s.addCommit e tb) (m + 1) = e := by
    rw [← hm]; exact parentOf_addCommit_self s e tb
  rw [hm] at hmem
  simp only [revWalk, hpar, List.mem_cons] at hmem
  rcases hmem with hmem | hmem
  · omega
  · rcases hgt with hE | ⟨p, hE, hpt⟩
    · rw [hE] at hmem; simp at hmem
    · rw [hE] at hmem
      simp only at hmem
      have hp : p < s.commits.length := he p hE
      rw [revWalk_addCommit s (some p) tb hwf m p hp] at hmem
      have := mem_revWalk_le s hwf m p t hmem
      omega

lemma pushCAS_store (w : World) (e : Option Nat) (tb : TreeBuilder) :
    (pushCAS w e tb).1.store = w.store.addCommit e tb := rfl

lemma pushCAS_attempts (w : World) (e : Option Nat) (tb : TreeBuilder) :
    (pushCAS w e tb).1.attempts = w.attempts + 1 := rfl

lemma pushCAS_tip_eq (w : World) (e : Option Nat) (tb : TreeBuilder)
    (he : validParent w.store e) (h : w.tip = e) :
    pushCAS w e tb
      = ({ store := w.store.addCommit e tb
         , tip := some w.store.commits.length
         , attempts := w.attempts + 1 }, .ok (some w.store.commits.length)) := by
  have hc : canFF (w.store.addCommit e tb) w.tip w.store.commits.length = true := by
    rw [h]; exact canFF_tip_eq w.store e tb he
  simp [pushCAS, hc, pushRust]

lemma pushCAS_raced (w : World) (e : Option Nat) (tb : TreeBuilder)
    (hwf : WorldWF w) (he : validParent w.store e) {t : Nat}
    (htip : w.tip = some t)
    (hgt : e = none ∨ ∃ p, e = some p ∧ p < t) :
    pushCAS w e tb
      = ({ store := w.store.addCommit e tb
         , tip := w.tip
         , attempts := w.attempts + 1 }, .ok none) := by
  have ht : t < w.store.commits.length := hwf.2 t htip
  have hc : canFF (w.store.addCommit e tb) w.tip w.store.commits.length = false := by
    rw [htip]
    exact canFF_advanced_false w.store e tb hwf.1 he ht hgt
  have hne : maybe_raced e w.tip = true := by
    rw [htip]
    simp only [maybe_raced, bne_iff_ne, ne_eq]
    rcases hgt with hE | ⟨p, hE, hpt⟩
    · simp [hE]
    · simp only [hE, Option.some.injEq]
      omega
  simp [pushCAS, hc, pushRust, hne]

lemma worldWF_pushCAS (w : World) (e : Option Nat) (tb : TreeBuilder)
    (hwf : WorldWF w) (he : validParent w.store e) :
    WorldWF (pushCAS w e tb).1 := by
  have hswf : StoreWF (w.store.addCommit e tb) :=
    storeWF_addCommit w.store e tb hwf.1 he
  have hlen : (w.store.addCommit e tb).commits.length = w.store.commits.length + 1 := by
    simp [Store.addCommit]
  constructor
  · rw [pushCAS_store]; exact hswf
  · intro t ht
    rw [pushCAS_store, hlen]
    simp only [pushCAS] at ht
    by_cases hc : canFF (w.store.addCommit e tb) w.tip w.store.commits.length
    · simp [hc] at ht
      omega
    · simp [hc] at ht
      have := hwf.2 t ht
      omega

lemma pushSucceeded_tip (w : World) (e : Option Nat) (tb : TreeBuilder)
    (h : pushSucceeded (pushCAS w e tb).2 = true) :
    (pushCAS w e tb).1.tip = some w.store.commits.length := by
  by_cases hc : canFF (w.store.addCommit e tb) w.tip w.store.commits.length
  · simp [pushCAS, hc]
  · exfalso
    simp only [pushCAS, hc] at h
    by_cases hr : maybe_raced e w.tip <;>
      simp [pushRust, hr, pushSucceeded] at h

/-! ## Ledger handles (`ledger.rs`: `GitLedger`, `Clone`)

Only the fields relevant to the clone-and-ephemeral-ref claim are
modelled; `GitLedger::new` takes the `thread_rng().gen::<u64>()` output
as an explicit argument. -/

/-- The reference-name state of a `GitLedger` handle. -/
structure GitLedgerS where
  branch_ref : String
  tracking_ref : String
  remote_name : String
  tmp_ref : String
deriving DecidableEq, Repr

/-- `GitLedger::new` (name computation only): the ephemeral ref gets a
random numeric suffix drawn at construction time. -/
def GitLedgerS.new (remote_name branch_name : String) (rng : Nat) : GitLedgerS :=
  { branch_ref := "refs/heads/" ++ branch_name
  , tracking_ref := "remotes/" ++ remote_name ++ "/" ++ branch_name
  , remote_name := remote_name
  , tmp_ref := "refs/tmp/tmp" ++ toString rng }

/-- `#[derive(Clone)] struct GitLedger`: the derived clone copies every
field, including `tmp_ref`. -/
def cloneGitLedger (g : GitLedgerS) : GitLedgerS :=
  { branch_ref := g.branch_ref
  , tracking_ref := g.tracking_ref
  , remote_name := g.remote_name
  , tmp_ref := g.tmp_ref }

/-- `BlobGitLedger::lock` stores `self.inner.clone()` into the guard it
returns: the guard's handle is the derived clone of the ledger's. -/
def lockGuardInner (inner : GitLedgerS) : GitLedgerS :=
  cloneGitLedger inner

/-! ## Blob-ledger lease manager (`blob_ledger.rs`)

The guard's random leases come from `rand::thread_rng().gen::<u64>()`;
each RNG draw is passed in as an explicit argument. -/

/-- `BlobGitLedgerGuard` cached state: last successful commit, current
lease, and cached payload. -/
structure Guard where
  commit : Option Nat
  lease : Nat
  data : Bytes
deriving DecidableEq, Repr

/-- Errors of the blob-ledger operations: the "Lost lease {old_lease}"
context added when a push raced, or a propagated push error. -/
inductive BLErr where
  | lostLease (oldLease : Nat)
  | pushFailed (e : PushErr)
deriving DecidableEq, Repr

/-- `BlobGitLedgerGuard::update`: assign a fresh lease, encode the new
payload under it, CAS-push with the guard's recorded commit as parent;
on success update the cached commit and payload; if the push raced,
fail with the lost-lease error (the lease field was already
overwritten, faithfully to the source's assignment order). -/
def guardUpdate (w : World) (g : Guard) (newData : Bytes) (newLease : Nat) :
    World × Guard × Except BLErr Unit :=
  let oldLease := g.lease
  let g1 : Guard := { g with lease := newLease }
  let store1 := (encode w.store newData newLease).1
  let tb := (encode w.store newData newLease).2
  match pushCAS { w with store := store1 } g.commit tb with
  | (w2, .ok (some c)) => (w2, { g1 with commit := some c, data := newData }, .ok ())
  | (w2, .ok none) => (w2, g1, .error (.lostLease oldLease))
  | (w2, .error e) => (w2, g1, .error (.pushFailed e))

/-- `BlobGitLedgerGuard::renew`: like `update` but keeps the cached
payload (it re-encodes `self.data` under the fresh lease). -/
def guardRenew (w : World) (g : Guard) (newLease : Nat) :
    World × Guard × Except BLErr Unit :=
  let oldLease := g.lease
  let g1 : Guard := { g with lease := newLease }
  let store1 := (encode w.store g.data newLease).1
  let tb := (encode w.store g.data newLease).2
  match pushCAS { w with store := store1 } g.commit tb with
  | (w2, .ok (some c)) => (w2, { g1 with commit := some c }, .ok ())
  | (w2, .ok none) => (w2, g1, .error (.lostLease oldLease))
  | (w2, .error e) => (w2, g1, .error (.pushFailed e))

/-- `BlobGitLedgerGuard::release_internal`: encode `(self.data, 0)` and
CAS-push with the recorded commit as parent; no guard field is updated. -/
def releaseInternal (w : World) (g : Guard) : World × Except BLErr Unit :=
  let store1 := (encode w.store g.data 0).1
  let tb := (encode w.store g.data 0).2
  match pushCAS { w with store := store1 } g.commit tb with
  | (w2, .ok (some _)) => (w2, .ok ())
  | (w2, .ok none) => (w2, .error (.lostLease g.lease))
  | (w2, .error e) => (w2, .error (.pushFailed e))

/-- `impl Drop for BlobGitLedgerGuard`: run `release_internal` and
discard its result (`.ok()`).  Rust runs this drop glue whenever a
guard goes out of scope — including at the end of `release` and
`update_and_release`, which take `self` by value and do not forget it. -/
def dropGuard (w : World) (g : Guard) : World :=
  (releaseInternal w g).1

/-- `BlobGitLedgerGuard::release(mut self)` as the caller observes it:
the explicit `release_internal`, followed by the drop glue on `self`. -/
def releaseFull (w : World) (g : Guard) : World × Except BLErr Unit :=
  let (w1, res) := releaseInternal w g
  (dropGuard w1 g, res)

/-- `BlobGitLedgerGuard::update_and_release(self, data)` as the caller
observes it: encode `(data, 0)`, CAS-push with the recorded parent,
then the drop glue on `self` (whose fields were not updated). -/
def update_and_release (w : World) (g : Guard) (newData : Bytes) :
    World × Except BLErr Unit :=
  let oldLease := g.lease
  let store1 := (encode w.store newData 0).1
  let tb := (encode w.store newData 0).2
  let step := pushCAS { w with store := store1 } g.commit tb
  let res : Except BLErr Unit :=
    match step.2 with
    | .ok (some _) => .ok ()
    | .ok none => .error (.lostLease oldLease)
    | .error e => .error (.pushFailed e)
  (dropGuard step.1 g, res)

/-- One fetch-and-decode observation of the ledger, as at the top of
`BlobGitLedger::lock`'s inner loop: an absent branch is `(none, empty,
lease 0)`; otherwise decode the tip commit's tree. -/
def fetchDecode (w : World) : Except DecodeErr (Option Nat × Bytes × Nat) :=
  match w.tip with
  | none => .ok (none, [], 0)
  | some t =>
    match w.store.commits[t]? with
    | none => .error .missingObject
    | some c =>
      match decode w.store c.tree with
      | .error e => .error e
      | .ok (data, lease) => .ok (some t, data, lease)

/-- Outcome of the first inner-loop iteration of `BlobGitLedger::lock`
(at which point `old_lease = 0` and no time has elapsed). -/
inductive LockStep where
  | acquired (g : Guard)
  | raced
  | mustWait (remoteLease : Nat)
  | failed
deriving DecidableEq, Repr

/-- First iteration of `lock` with RNG draw `r` and configured
`lease_length`: observe the ledger; with remote lease 0 (or a zero
lease length, in which case the wait expires immediately) claim at once
by pushing `encode(data_seen, r)` with the observed commit as parent;
otherwise the loop must wait.  A raced push restarts the outer loop. -/
def lockFirstStep (w : World) (leaseLength : Nat) (r : Nat) : World × LockStep :=
  match fetchDecode w with
  | .error _ => (w, .failed)
  | .ok (commit, data, lease) =>
    if lease = 0 ∨ leaseLength = 0 then
      let store1 := (encode w.store data r).1
      let tb := (encode w.store data r).2
      match pushCAS { w with store := store1 } commit tb with
      | (w2, .ok (some c)) => (w2, .acquired ⟨some c, r, data⟩)
      | (w2, .ok none) => (w2, .raced)
      | (w2, .error _) => (w2, .failed)
    else (w, .mustWait lease)

/-! ## Helper lemmas about the guard operations -/

lemma parentOf_congr {s1 s2 : Store} (h : s1.commits = s2.commits) (i : Nat) :
    parentOf s1 i = parentOf s2 i := by
  simp [parentOf, h]

lemma storeWF_congr {s1 s2 : Store} (h : s1.commits = s2.commits)
    (hwf : StoreWF s2) : StoreWF s1 := by
  intro i p hp
  rw [parentOf_congr h] at hp
  exact hwf i p hp

lemma encode_fst_commits (s : Store) (d : Bytes) (l : Nat) :
    (encode s d l).1.commits = s.commits := rfl

lemma worldWF_store_encode (w : World) (d : Bytes) (l : Nat) (hwf : WorldWF w) :
    WorldWF { w with store := (encode w.store d l).1 } := by
  refine ⟨storeWF_congr (encode_fst_commits w.store d l) hwf.1, ?_⟩
  intro t ht
  exact hwf.2 t ht

lemma validParent_store_encode (w : World) (d : Bytes) (l : Nat) {e : Option Nat}
    (he : validParent w.store e) : validParent (encode w.store d l).1 e :=
  fun p hp => he p hp

lemma validParent_of_tip (w : World) {e : Option Nat} (hwf : WorldWF w)
    (ht : w.tip = e) : validParent w.store e :=
  fun p hp => hwf.2 p (ht.trans hp)

lemma guardUpdate_succ (w : World) (g : Guard) (d : Bytes) (r : Nat)
    (hwf : WorldWF w) (ht : w.tip = g.commit) :
    guardUpdate w g d r
      = ({ store := ((encode w.store d r).1).addCommit g.commit (encode w.store d r).2
         , tip := some w.store.commits.length
         , attempts := w.attempts + 1 },
         ⟨some w.store.commits.length, r, d⟩, .ok ()) := by
  have hpush := pushCAS_tip_eq { w with store := (encode w.store d r).1 } g.commit
      (encode w.store d r).2
      (validParent_store_encode w d r (validParent_of_tip w hwf ht)) ht
  simp only [guardUpdate]
  rw [hpush]
  rfl

lemma guardRenew_succ (w : World) (g : Guard) (r : Nat)
    (hwf : WorldWF w) (ht : w.tip = g.commit) :
    guardRenew w g r
      = ({ store := ((encode w.store g.data r).1).addCommit g.commit
            (encode w.store g.data r).2
         , tip := some w.store.commits.length
         , attempts := w.attempts + 1 },
         ⟨some w.store.commits.length, r, g.data⟩, .ok ()) := by
  have hpush := pushCAS_tip_eq { w with store := (encode w.store g.data r).1 } g.commit
      (encode w.store g.data r).2
      (validParent_store_encode w g.data r (validParent_of_tip w hwf ht)) ht
  simp only [guardRenew]
  rw [hpush]
  rfl

lemma guardUpdate_raced (w : World) (g : Guard) (d : Bytes) (r : Nat)
    (hwf : WorldWF w) {t : Nat} (htip : w.tip = some t)
    (hvp : validParent w.store g.commit)
    (hgt : g.commit = none ∨ ∃ p, g.commit = some p ∧ p < t) :
    (guardUpdate w g d r).2.2 = .error (.lostLease g.lease) := by
  have hpush := pushCAS_raced { w with store := (encode w.store d r).1 } g.commit
      (encode w.store d r).2 (worldWF_store_encode w d r hwf)
      (validParent_store_encode w d r hvp) htip hgt
  simp only [guardUpdate]
  rw [hpush]

lemma guardRenew_raced (w : World) (g : Guard) (r : Nat)
    (hwf : WorldWF w) {t : Nat} (htip : w.tip = some t)
    (hvp : validParent w.store g.commit)
    (hgt : g.commit = none ∨ ∃ p, g.commit = some p ∧ p < t) :
    (guardRenew w g r).2.2 = .error (.lostLease g.lease) := by
  have hpush := pushCAS_raced { w with store := (encode w.store g.data r).1 } g.commit
      (encode w.store g.data r).2 (worldWF_store_encode w g.data r hwf)
      (validParent_store_encode w g.data r hvp) htip hgt
  simp only [guardRenew]
  rw [hpush]

lemma releaseInternal_raced (w : World) (g : Guard)
    (hwf : WorldWF w) {t : Nat} (htip : w.tip = some t)
    (hvp : validParent w.store g.commit)
    (hgt : g.commit = none ∨ ∃ p, g.commit = some p ∧ p < t) :
    (releaseInternal w g).2 = .error (.lostLease g.lease) := by
  have hpush := pushCAS_raced { w with store := (encode w.store g.data 0).1 } g.commit
      (encode w.store g.data 0).2 (worldWF_store_encode w g.data 0 hwf)
      (validParent_store_encode w g.data 0 hvp) htip hgt
  simp only [releaseInternal]
  rw [hpush]

lemma guardRenew_world (w : World) (g : Guard) (r : Nat) :
    (guardRenew w g r).1
      = (pushCAS { w with store := (encode w.store g.data r).1 } g.commit
          (encode w.store g.data r).2).1 := by
  simp only [guardRenew]
  generalize pushCAS { w with store := (encode w.store g.data r).1 } g.commit
      (encode w.store g.data r).2 = pr
  rcases pr with ⟨w2, res⟩
  cases res with
  | ok o => cases o <;> rfl
  | error e => rfl

lemma releaseInternal_world (w : World) (g : Guard) :
    (releaseInternal w g).1
      = (pushCAS { w with store := (encode w.store g.data 0).1 } g.commit
          (encode w.store g.data 0).2).1 := by
  simp only [releaseInternal]
  generalize pushCAS { w with store := (encode w.store g.data 0).1 } g.commit
      (encode w.store g.data 0).2 = pr
  rcases pr with ⟨w2, res⟩
  cases res with
  | ok o => cases o <;> rfl
  | error e => rfl

/-! ## Claims -/

/-- C3: lease codec round-trip.  For every byte sequence `payload` and
every 64-bit lease value, decoding the tree produced by
`encode(payload, lease)` yields exactly `(payload, lease)`, and the
encoded tree has a single blob entry whose name is the hex encoding of
the lease's little-endian bytes. -/
theorem c3_lease_codec_roundtrip (s : Store) (payload : Bytes) (lease : Nat)
    (hl : lease < 2 ^ 64) :
    decode (encode s payload lease).1 (encode s payload lease).2
        = .ok (payload, lease) ∧
    (encode s payload lease).2.entries
        = [⟨s.blobs.length, .blob, hexEncode (u64ToLeBytes lease)⟩] :=
  ⟨decode_encode s payload lease hl, rfl⟩

theorem c3_witness :
    decode (encode ⟨[], []⟩ [7, 8] 5).1 (encode ⟨[], []⟩ [7, 8] 5).2
        = .ok ([7, 8], 5) ∧
    (encode ⟨[], []⟩ [7, 8] 5).2.entries
        = [⟨0, .blob, hexEncode (u64ToLeBytes 5)⟩] :=
  c3_lease_codec_roundtrip ⟨[], []⟩ [7, 8] 5 (by norm_num)

/-- C10: decoding a tree with exactly zero entries passes the
more-than-one-entry check, skips the entry loop and hits
`unreachable!()` (a panic, not a recoverable error and not the
`(empty, 0)` value); the `(empty, 0)` default arises only from the
absent-branch case of the fetch in `lock`. -/
theorem c10_empty_tree_decode_panics :
    (∀ s : Store, decode s ⟨[]⟩ = .error .panicUnreachable) ∧
    (∀ s : Store, ∀ v : Bytes × Nat, decode s ⟨[]⟩ ≠ .ok v) ∧
    (∀ w : World, w.tip = none → fetchDecode w = .ok (none, [], 0)) :=
  ⟨fun _ => rfl, fun _ _ h => by simp [decode] at h, fun w h => by simp [fetchDecode, h]⟩

theorem c10_witness :
    decode ⟨[], []⟩ ⟨[]⟩ = .error .panicUnreachable ∧
    fetchDecode ⟨⟨[], []⟩, none, 0⟩ = .ok (none, [], 0) :=
  ⟨c10_empty_tree_decode_panics.1 ⟨[], []⟩,
   c10_empty_tree_decode_panics.2.2 ⟨⟨[], []⟩, none, 0⟩ rfl⟩

/-- C2: `GitLedger::push` returns a new commit hash exactly when the
external push subprocess exits successfully; when the push is rejected
it compares the tracking ref fetched by `maybe_raced` with
`expected_parent` — if they differ the call returns `None` (a race),
and if they are equal it fails with an error. -/
theorem c2_push_rejection_handling (cmd : CmdResult) (e o : Option Nat) (newId : Nat) :
    ((∃ h, pushRust cmd e o newId = .ok (some h)) ↔ cmd = .success) ∧
    (cmd = .rejected → e ≠ o → pushRust cmd e o newId = .ok none) ∧
    (cmd = .rejected → e = o → pushRust cmd e o newId = .error .gitCommandFailed) ∧
    (maybe_raced e o = true ↔ e ≠ o) := by
  have hmr : maybe_raced e o = true ↔ e ≠ o := by
    simp [maybe_raced]
  refine ⟨?_, ?_, ?_, hmr⟩
  · cases cmd with
    | success => simp [pushRust]
    | rejected =>
      simp only [pushRust]
      constructor
      · rintro ⟨h, hh⟩
        by_cases hr : maybe_raced e o <;> simp [hr] at hh
      · intro h
        exact absurd h (by decide)
    | spawnFailed => simp [pushRust]
  · intro hc hne
    subst hc
    simp [pushRust, hmr.mpr hne]
  · intro hc heq
    subst hc
    have hfalse : maybe_raced e o = false := by
      simp [maybe_raced, heq]
    simp [pushRust, hfalse]

theorem c2_witness :
    pushRust .rejected none (some 3) 7 = .ok none ∧
    pushRust .rejected (some 3) (some 3) 7 = .error .gitCommandFailed :=
  ⟨(c2_push_rejection_handling .rejected none (some 3) 7).2.1 rfl (by decide),
   (c2_push_rejection_handling .rejected (some 3) (some 3) 7).2.2.1 rfl rfl⟩

/-- C8: `fast_forward(local_ref, target_hash)` returns true iff the
ref's current value is absent, equal to the target, or a strict
ancestor of the target; in the true cases the ref ends up at the
target, and on divergence it returns false and leaves the ref
unchanged. -/
theorem c8_fast_forward_correct (s : Store) (refVal : Option Nat) (id : Nat)
    (hwf : StoreWF s) :
    ((fast_forward s refVal id).2 = true ↔
        refVal = none ∨ refVal = some id ∨
          ∃ c, refVal = some c ∧ StrictAncestor s c id) ∧
    ((fast_forward s refVal id).2 = true → (fast_forward s refVal id).1 = some id) ∧
    ((fast_forward s refVal id).2 = false → (fast_forward s refVal id).1 = refVal) := by
  cases refVal with
  | none => simp [fast_forward]
  | some cur =>
    by_cases hcur : cur = id
    · subst hcur
      simp [fast_forward]
    · by_cases hanc : is_ancestor s cur id
      · have hsa : StrictAncestor s cur id := by
          rcases (is_ancestor_iff s hwf cur id).mp hanc with h | h
          · exact absurd h hcur
          · exact h
        have hval : fast_forward s (some cur) id = (some id, true) := by
          simp [fast_forward, hcur, hanc]
        rw [hval]
        refine ⟨?_, fun _ => rfl, fun h => by simp at h⟩
        constructor
        · intro _
          exact Or.inr (Or.inr ⟨cur, rfl, hsa⟩)
        · intro _
          rfl
      · have hnsa : ¬ StrictAncestor s cur id := by
          intro h
          rw [(is_ancestor_iff s hwf cur id).mpr (Or.inr h)] at hanc
          exact hanc rfl
        have hval : fast_forward s (some cur) id = (some cur, false) := by
          simp [fast_forward, hcur, hanc]
        rw [hval]
        refine ⟨?_, fun h => by simp at h, fun _ => rfl⟩
        constructor
        · intro h
          simp at h
        · rintro (h | h | ⟨c, hc, hsa⟩)
          · exact absurd h (by simp)
          · exact absurd (Option.some.inj h) hcur
          · cases Option.some.inj hc
            exact absurd hsa hnsa

theorem c8_witness :
    (fast_forward ⟨[], [⟨none, ⟨[]⟩⟩, ⟨some 0, ⟨[]⟩⟩]⟩ (some 0) 1).1 = some 1 :=
  (c8_fast_forward_correct ⟨[], [⟨none, ⟨[]⟩⟩, ⟨some 0, ⟨[]⟩⟩]⟩ (some 0) 1
    (storeWFb_sound _ (by decide))).2.1 (by decide)

/-- C1: mutual exclusion under CAS.  The remote serializes pushes, so
two pushes issued concurrently with the same `expected_parent` execute
as `pushCAS` twice in one of the two orders; in either order at most
one of them returns success (the statement quantifies over both trees,
so it covers both serialization orders by symmetry). -/
theorem c1_mutual_exclusion (w : World) (e : Option Nat) (t1 t2 : TreeBuilder)
    (hwf : WorldWF w) (he : validParent w.store e) :
    ¬(pushSucceeded (pushCAS w e t1).2 = true ∧
      pushSucceeded (pushCAS (pushCAS w e t1).1 e t2).2 = true) := by
  rintro ⟨h1, h2⟩
  have htip : (pushCAS w e t1).1.tip = some w.store.commits.length :=
    pushSucceeded_tip w e t1 h1
  have hwf1 : WorldWF (pushCAS w e t1).1 := worldWF_pushCAS w e t1 hwf he
  have he1 : validParent (pushCAS w e t1).1.store e := by
    intro p hp
    have hlt := he p hp
    rw [pushCAS_store]
    simp only [Store.addCommit, List.length_append, List.length_cons,
      List.length_nil]
    omega
  have hgt : e = none ∨ ∃ p, e = some p ∧ p < w.store.commits.length := by
    cases e with
    | none => exact Or.inl rfl
    | some p => exact Or.inr ⟨p, rfl, he p rfl⟩
  have hraced := pushCAS_raced (pushCAS w e t1).1 e t2 hwf1 he1 htip hgt
  rw [hraced] at h2
  simp [pushSucceeded] at h2

theorem c1_witness :
    WorldWF ⟨⟨[], []⟩, none, 0⟩ ∧
    ¬(pushSucceeded (pushCAS ⟨⟨[], []⟩, none, 0⟩ none ⟨[]⟩).2 = true ∧
      pushSucceeded
        (pushCAS (pushCAS ⟨⟨[], []⟩, none, 0⟩ none ⟨[]⟩).1 none ⟨[]⟩).2 = true) :=
  have hwf : WorldWF ⟨⟨[], []⟩, none, 0⟩ := worldWFb_sound _ (by decide)
  ⟨hwf, c1_mutual_exclusion ⟨⟨[], []⟩, none, 0⟩ none ⟨[]⟩ ⟨[]⟩ hwf
    (fun p hp => by cases hp)⟩

/-- C5 counterexample: the claim asserts that every clone of a ledger
handle has an ephemeral (tmp) ref name distinct from the original's.
`#[derive(Clone)]` copies `tmp_ref` verbatim, so at this concrete
handle the clone's tmp ref name equals the original's. -/
theorem c5_counterexample :
    (cloneGitLedger (GitLedgerS.new "origin" "main" 12345)).tmp_ref
      = (GitLedgerS.new "origin" "main" 12345).tmp_ref := rfl

/-- C5 (amended): a clone produced by the derived `Clone` (including
the handle stored inside each acquired guard) shares the original's
ephemeral-ref name; distinct ephemeral names come only from separate
`GitLedger::new` calls, whose random suffixes differ (witnessed here at
two concrete draws). -/
theorem c5_clone_shares_tmp_ref (g : GitLedgerS) :
    (cloneGitLedger g).tmp_ref = g.tmp_ref ∧
    (lockGuardInner g).tmp_ref = g.tmp_ref ∧
    (GitLedgerS.new "origin" "main" 1).tmp_ref
      ≠ (GitLedgerS.new "origin" "main" 2).tmp_ref :=
  ⟨rfl, rfl, by decide⟩

lemma lockFirstStep_acquired_lease (w w' : World) (L r : Nat) (g : Guard)
    (h : lockFirstStep w L r = (w', .acquired g)) : g.lease = r := by
  simp only [lockFirstStep] at h
  split at h
  · simp at h
  · split at h
    · split at h
      · simp only [Prod.mk.injEq, LockStep.acquired.injEq] at h
        rw [← h.2]
      · simp at h
      · simp at h
    · simp at h

lemma guardUpdate_lease (w : World) (g : Guard) (d : Bytes) (r : Nat) :
    (guardUpdate w g d r).2.1.lease = r := by
  simp only [guardUpdate]
  split <;> rfl

lemma guardRenew_lease (w : World) (g : Guard) (r : Nat) :
    (guardRenew w g r).2.1.lease = r := by
  simp only [guardRenew]
  split <;> rfl

/-- C6 counterexample: the claim asserts the stored lease is non-zero
for every possible RNG output.  The source assigns
`rand::thread_rng().gen()` without rejecting zero, so when the RNG
yields 0 a lock acquisition stores lease 0 — the "no lease held"
marker — and the acquired guard carries lease 0. -/
theorem c6_counterexample :
    (lockFirstStep ⟨⟨[], []⟩, none, 0⟩ 500 0).2 = .acquired ⟨some 0, 0, []⟩ ∧
    fetchDecode (lockFirstStep ⟨⟨[], []⟩, none, 0⟩ 500 0).1 = .ok (some 0, [], 0) :=
  ⟨rfl, rfl⟩

/-- C6 (amended): the lease stored by `lock`, `update` and `renew`
equals the RNG draw unchanged; it is therefore non-zero exactly when
the RNG output is non-zero (the source never redraws on zero). -/
theorem c6_lease_equals_rng_output (w w' : World) (L r : Nat) (g gg : Guard)
    (d : Bytes) (h : lockFirstStep w L r = (w', .acquired g)) :
    (g.lease = r ∧ (r ≠ 0 → g.lease ≠ 0)) ∧
    (guardUpdate w gg d r).2.1.lease = r ∧
    (guardRenew w gg r).2.1.lease = r := by
  have hl := lockFirstStep_acquired_lease w w' L r g h
  exact ⟨⟨hl, fun hr => by rw [hl]; exact hr⟩,
    guardUpdate_lease w gg d r, guardRenew_lease w gg r⟩

theorem c6_witness :
    ((⟨some 0, 5, []⟩ : Guard).lease = 5 ∧
      ((5 : Nat) ≠ 0 → (⟨some 0, 5, []⟩ : Guard).lease ≠ 0)) ∧
    (guardUpdate ⟨⟨[], []⟩, none, 0⟩ ⟨none, 3, []⟩ [1] 5).2.1.lease = 5 ∧
    (guardRenew ⟨⟨[], []⟩, none, 0⟩ ⟨none, 3, []⟩ 5).2.1.lease = 5 :=
  c6_lease_equals_rng_output ⟨⟨[], []⟩, none, 0⟩
    (lockFirstStep ⟨⟨[], []⟩, none, 0⟩ 500 5).1 500 5 ⟨some 0, 5, []⟩
    ⟨none, 3, []⟩ [1] (by decide)

/-- C9 counterexample: the claim asserts destruction attempts a release
only when no release variant was called.  `release(mut self)` takes
`self` by value and never forgets it, so the drop glue runs
`release_internal` again after a successful `release`: at this concrete
input the explicit release succeeds, yet the full call performs two
push attempts (the drop-time one is rejected as a race and swallowed). -/
theorem c9_counterexample :
    (releaseInternal ⟨⟨[], []⟩, none, 0⟩ ⟨none, 7, []⟩).2 = .ok () ∧
    (releaseFull ⟨⟨[], []⟩, none, 0⟩ ⟨none, 7, []⟩).1.attempts = 2 :=
  ⟨rfl, rfl⟩

/-- C9 (amended): destruction always performs exactly one best-effort
CAS push of `(cached payload, lease 0)` with the guard's recorded
commit as parent, ignoring any error — even when a release variant was
already called (the extra attempt is then rejected as a race and has no
remote effect). -/
theorem c9_drop_always_attempts_release (w : World) (g : Guard) :
    (dropGuard w g).attempts = w.attempts + 1 ∧
    (dropGuard w g).store.commits
      = w.store.commits ++ [⟨g.commit, (encode w.store g.data 0).2⟩] ∧
    (encode w.store g.data 0).2.entries
      = [⟨w.store.blobs.length, .blob, hexEncode (u64ToLeBytes 0)⟩] := by
  refine ⟨?_, ?_, rfl⟩
  · simp only [dropGuard, releaseInternal_world, pushCAS_attempts]
  · simp only [dropGuard, releaseInternal_world, pushCAS_store]
    rfl

/-- C4: every guard mutation is a CAS push with `expected_parent` equal
to the guard's recorded commit.  From the current tip, `update`
succeeds and replaces the cached commit, lease and payload (and `renew`
likewise, keeping the payload); after a second guard with the same
recorded commit renews first (advancing the remote tip past it), the
first guard's `update`, `renew` and `release` all fail with the
lost-lease error. -/
theorem c4_guard_lease_cas (w : World) (gA gB : Guard) (d : Bytes)
    (rU rR rB r2 r3 : Nat)
    (hwf : WorldWF w) (hA : w.tip = gA.commit) (hB : gB.commit = gA.commit) :
    guardUpdate w gA d rU
      = ({ store := ((encode w.store d rU).1).addCommit gA.commit
            (encode w.store d rU).2
         , tip := some w.store.commits.length
         , attempts := w.attempts + 1 },
         ⟨some w.store.commits.length, rU, d⟩, .ok ()) ∧
    guardRenew w gA rR
      = ({ store := ((encode w.store gA.data rR).1).addCommit gA.commit
            (encode w.store gA.data rR).2
         , tip := some w.store.commits.length
         , attempts := w.attempts + 1 },
         ⟨some w.store.commits.length, rR, gA.data⟩, .ok ()) ∧
    (guardUpdate ((guardRenew w gB rB).1) gA d r2).2.2
        = .error (.lostLease gA.lease) ∧
    (guardRenew ((guardRenew w gB rB).1) gA r3).2.2
        = .error (.lostLease gA.lease) ∧
    (releaseInternal ((guardRenew w gB rB).1) gA).2
        = .error (.lostLease gA.lease) := by
  have htB : w.tip = gB.commit := hA.trans hB.symm
  have h1 := guardUpdate_succ w gA d rU hwf hA
  have h2 := guardRenew_succ w gA rR hwf hA
  have hW1 : (guardRenew w gB rB).1
      = { store := ((encode w.store gB.data rB).1).addCommit gB.commit
            (encode w.store gB.data rB).2
        , tip := some w.store.commits.length
        , attempts := w.attempts + 1 } := by
    rw [guardRenew_succ w gB rB hwf htB]
  have hwfW1 : WorldWF (guardRenew w gB rB).1 := by
    rw [guardRenew_world w gB rB]
    exact worldWF_pushCAS _ _ _ (worldWF_store_encode w gB.data rB hwf)
      (validParent_store_encode w gB.data rB (validParent_of_tip w hwf htB))
  have htip1 : (guardRenew w gB rB).1.tip = some w.store.commits.length := by
    rw [hW1]
  have hvpA1 : validParent (guardRenew w gB rB).1.store gA.commit := by
    intro p hp
    have hlt := hwf.2 p (hA.trans hp)
    rw [hW1]
    simp only [Store.addCommit, List.length_append, List.length_cons,
      List.length_nil]
    have hcm : ((encode w.store gB.data rB).1).commits.length
        = w.store.commits.length := by
      rw [encode_fst_commits]
    omega
  have hgt : gA.commit = none ∨
      ∃ p, gA.commit = some p ∧ p < w.store.commits.length := by
    cases hc : gA.commit with
    | none => exact Or.inl rfl
    | some p => exact Or.inr ⟨p, rfl, hwf.2 p (hA.trans hc)⟩
  refine ⟨h1, h2, ?_, ?_, ?_⟩
  · exact guardUpdate_raced _ gA d r2 hwfW1 htip1 hvpA1 hgt
  · exact guardRenew_raced _ gA r3 hwfW1 htip1 hvpA1 hgt
  · exact releaseInternal_raced _ gA hwfW1 htip1 hvpA1 hgt

theorem c4_witness :
    (guardUpdate ((guardRenew ⟨⟨[], []⟩, none, 0⟩ ⟨none, 4, []⟩ 6).1)
        ⟨none, 9, []⟩ [2] 7).2.2 = .error (.lostLease 9) :=
  (c4_guard_lease_cas ⟨⟨[], []⟩, none, 0⟩ ⟨none, 9, []⟩ ⟨none, 4, []⟩ [2] 5 5 6 7 7
    (worldWFb_sound _ (by decide)) rfl rfl).2.2.1

lemma fetchDecode_of (w : World) (n o : Nat) (par : Option Nat) (m : EntryMode)
    (x : Bytes) (l : Nat) (hl : l < 2 ^ 64) (htip : w.tip = some n)
    (hc : w.store.commits[n]? = some ⟨par, ⟨[⟨o, m, hexEncode (u64ToLeBytes l)⟩]⟩⟩)
    (hb : findBlob w.store o = some x) :
    fetchDecode w = .ok (some n, x, l) := by
  simp only [fetchDecode, htip, hc, decode_single_entry w.store o m l x hl hb]

lemma update_and_release_eval (w : World) (g : Guard) (x : Bytes)
    (hwf : WorldWF w) (ht : w.tip = g.commit) :
    update_and_release w g x
      = (dropGuard { store := ((encode w.store x 0).1).addCommit g.commit
                      (encode w.store x 0).2
                   , tip := some w.store.commits.length
                   , attempts := w.attempts + 1 } g, .ok ()) := by
  have hpush := pushCAS_tip_eq { w with store := (encode w.store x 0).1 } g.commit
      (encode w.store x 0).2
      (validParent_store_encode w x 0 (validParent_of_tip w hwf ht)) ht
  simp only [update_and_release]
  rw [hpush]
  rfl

lemma dropGuard_raced_eval (w2 : World) (g : Guard) {t : Nat}
    (hwf2 : WorldWF w2) (htip : w2.tip = some t)
    (hvp : validParent w2.store g.commit)
    (hgt : g.commit = none ∨ ∃ p, g.commit = some p ∧ p < t) :
    dropGuard w2 g
      = { store := ((encode w2.store g.data 0).1).addCommit g.commit
            (encode w2.store g.data 0).2
        , tip := w2.tip
        , attempts := w2.attempts + 1 } := by
  have hpush := pushCAS_raced { w2 with store := (encode w2.store g.data 0).1 } g.commit
      (encode w2.store g.data 0).2 (worldWF_store_encode w2 g.data 0 hwf2)
      (validParent_store_encode w2 g.data 0 hvp) htip hgt
  simp only [dropGuard, releaseInternal_world]
  rw [hpush]

lemma lockFirstStep_claims (w : World) (n : Nat) (x : Bytes) (L r : Nat)
    (hwf : WorldWF w) (htip : w.tip = some n)
    (hfd : fetchDecode w = .ok (some n, x, 0)) :
    (lockFirstStep w L r).2 = .acquired ⟨some w.store.commits.length, r, x⟩ := by
  have hvp : validParent ((encode w.store x r).1) (some n) := by
    intro p hp
    have hpn := Option.some.inj hp
    have hn := hwf.2 n htip
    rw [encode_fst_commits]
    omega
  have hpush := pushCAS_tip_eq { w with store := (encode w.store x r).1 }
      (some n) (encode w.store x r).2 hvp htip
  simp only [lockFirstStep, hfd, true_or, if_true]
  rw [hpush]
  rfl

/-- C7: after a successful `update_and_release(x)` (including the drop
glue that runs on the consumed guard, whose extra push is rejected and
ignored), the ledger's stored state decodes to `(x, lease 0)`, and a
fresh `lock` observing it claims immediately on its first iteration —
no waiting for lease expiry — returning a guard whose data is `x` and
whose lease is the (fresh random) RNG draw `r`. -/
theorem c7_update_and_release_then_lock (w : World) (g : Guard) (x : Bytes)
    (L r : Nat) (hwf : WorldWF w) (ht : w.tip = g.commit) :
    (update_and_release w g x).2 = .ok () ∧
    fetchDecode (update_and_release w g x).1
      = .ok (some w.store.commits.length, x, 0) ∧
    ∃ c, (lockFirstStep (update_and_release w g x).1 L r).2
      = .acquired ⟨some c, r, x⟩ := by
  have hvp : validParent w.store g.commit := validParent_of_tip w hwf ht
  have hEval := update_and_release_eval w g x hwf ht
  have hwf2 : WorldWF
      ({ store := ((encode w.store x 0).1).addCommit g.commit (encode w.store x 0).2,
         tip := some w.store.commits.length,
         attempts := w.attempts + 1 } : World) := by
    have hpush := pushCAS_tip_eq { w with store := (encode w.store x 0).1 } g.commit
        (encode w.store x 0).2 (validParent_store_encode w x 0 hvp) ht
    have h := worldWF_pushCAS { w with store := (encode w.store x 0).1 } g.commit
        (encode w.store x 0).2 (worldWF_store_encode w x 0 hwf)
        (validParent_store_encode w x 0 hvp)
    rw [hpush] at h
    exact h
  have hvp2 : validParent
      ({ store := ((encode w.store x 0).1).addCommit g.commit (encode w.store x 0).2,
         tip := some w.store.commits.length,
         attempts := w.attempts + 1 } : World).store g.commit := by
    intro p hp
    have hlt := hvp p hp
    simp only [Store.addCommit, List.length_append, List.length_cons, List.length_nil]
    have hcm : ((encode w.store x 0).1).commits.length = w.store.commits.length := by
      rw [encode_fst_commits]
    omega
  have hgt : g.commit = none ∨
      ∃ p, g.commit = some p ∧ p < w.store.commits.length := by
    cases hc : g.commit with
    | none => exact Or.inl rfl
    | some p => exact Or.inr ⟨p, rfl, hvp p hc⟩
  set W2 : World :=
      { store := ((encode w.store x 0).1).addCommit g.commit (encode w.store x 0).2,
        tip := some w.store.commits.length,
        attempts := w.attempts + 1 } with hW2def
  have hdrop := dropGuard_raced_eval W2 g hwf2 rfl hvp2 hgt
  have hwf4 : WorldWF (dropGuard W2 g) := by
    show WorldWF (releaseInternal W2 g).1
    rw [releaseInternal_world]
    exact worldWF_pushCAS _ _ _ (worldWF_store_encode W2 g.data 0 hwf2)
      (validParent_store_encode W2 g.data 0 hvp2)
  have htip4 : (dropGuard W2 g).tip = some w.store.commits.length := by
    rw [hdrop]
  have hfd4 : fetchDecode (dropGuard W2 g)
      = .ok (some w.store.commits.length, x, 0) := by
    rw [hdrop]
    refine fetchDecode_of _ w.store.commits.length w.store.blobs.length g.commit
      .blob x 0 (by norm_num) rfl ?_ ?_
    · show ((w.store.commits
          ++ [⟨g.commit, ⟨[⟨w.store.blobs.length, .blob,
                hexEncode (u64ToLeBytes 0)⟩]⟩⟩])
          ++ [⟨g.commit, (encode W2.store g.data 0).2⟩])[w.store.commits.length]?
        = some ⟨g.commit, ⟨[⟨w.store.blobs.length, .blob,
            hexEncode (u64ToLeBytes 0)⟩]⟩⟩
      rw [List.getElem?_append_left (by simp)]
      exact List.getElem?_concat_length _ _
    · show ((w.store.blobs ++ [x]) ++ [g.data])[w.store.blobs.length]? = some x
      rw [List.getElem?_append_left (by simp)]
      exact List.getElem?_concat_length _ _
  refine ⟨?_, ?_, ?_⟩
  · rw [hEval]
  · rw [hEval]
    exact hfd4
  · refine ⟨(dropGuard W2 g).store.commits.length, ?_⟩
    rw [hEval]
    exact lockFirstStep_claims (dropGuard W2 g) w.store.commits.length x L r
      hwf4 htip4 hfd4

theorem c7_witness :
    (update_and_release ⟨⟨[], []⟩, none, 0⟩ ⟨none, 7, []⟩ [1]).2 = .ok () ∧
    fetchDecode (update_and_release ⟨⟨[], []⟩, none, 0⟩ ⟨none, 7, []⟩ [1]).1
      = .ok (some 0, [1], 0) ∧
    ∃ c, (lockFirstStep
        (update_and_release ⟨⟨[], []⟩, none, 0⟩ ⟨none, 7, []⟩ [1]).1 9 5).2
      = .acquired ⟨some c, 5, [1]⟩ :=
  c7_update_and_release_then_lock ⟨⟨[], []⟩, none, 0⟩ ⟨none, 7, []⟩ [1] 9 5
    (worldWFb_sound _ (by decide)) rfl
